import Mathlib

/-!
Verification of the two documentation-linting scripts
`scripts/validation/heading_hierarchy.py` and
`scripts/validation/markdown_complexity.py`.

File contents are modelled as `List Char`.  The Python regular expressions
used by the scripts are transcribed as explicit scanning functions whose
behaviour matches `re.findall` (leftmost, non-overlapping matches, greedy and
lazy repetition with backtracking) on the concrete patterns involved; the
reasoning justifying each transcription is given in the doc comment of the
corresponding function.
-/

/-- Python `\s` on the ASCII range: space, tab, newline, carriage return,
vertical tab, form feed.  (All inputs considered here are ASCII.) -/
def isWs (c : Char) : Bool :=
  c = ' ' || c = '\t' || c = '\n' || c = '\x0d' || c = '\x0b' || c = '\x0c'

/-- The list-marker character class `[-*+]`. -/
def isMarker (c : Char) : Bool :=
  c = '-' || c = '*' || c = '+'

/-- The backtick character. -/
def backtick : Char := Char.ofNat 96

/-- The single-quote character, as a string. -/
def squote : String := String.mk [Char.ofNat 39]

/-- Drop characters up to and including the first newline; the empty list
when there is no newline.  Used to advance a scan to the start of the
next line. -/
def dropLine : List Char → List Char
  | [] => []
  | c :: t => if c = '\n' then t else dropLine t

theorem dropWhile_length_le (p : Char → Bool) (l : List Char) :
    (l.dropWhile p).length ≤ l.length := by
  induction l with
  | nil => simp
  | cons c t ih =>
    by_cases h : p c <;> simp [List.dropWhile_cons, h]
    omega

theorem takeWhile_dropWhile_length (p : Char → Bool) (l : List Char) :
    (l.takeWhile p).length + (l.dropWhile p).length = l.length := by
  conv_rhs => rw [← List.takeWhile_append_dropWhile p l]
  rw [List.length_append]

theorem dropLine_length_le (l : List Char) : (dropLine l).length ≤ l.length := by
  induction l with
  | nil => simp [dropLine]
  | cons c t ih =>
    simp only [dropLine]
    split
    · simp
    · exact Nat.le_succ_of_le ih

theorem dropLine_length_lt (c : Char) (t : List Char) :
    (dropLine (c :: t)).length < (c :: t).length := by
  simp only [dropLine]
  split
  · simp
  · exact Nat.lt_succ_of_le (dropLine_length_le t)

example : dropLine ['a', '\n', 'b'] = ['b'] := by decide
example : dropLine ['a', 'b'] = [] := by decide

/-!
## Heading extraction

`check_heading_hierarchy` extracts headings with
`re.findall(r'^(#{1,6})\s+(.+)$', content, re.MULTILINE)`.
-/

/-- The `#` character class. -/
def isHash (c : Char) : Bool := c = '#'

/-- The part of a heading match after the `#` run: `ws` is the input from the
first character after the run (known by the caller to be whitespace).
`\s+` is greedy and (without `re.DOTALL`) may span newlines; `.` never matches
a newline; `$` (with `re.MULTILINE`) matches before a newline or at the end of
input.  Hence:
* if some non-whitespace character `z` follows the whitespace run, the group
  `(.+)` is the segment from `z` to the end of the line `z` is on (`z` is not
  a newline since it is not whitespace), and `$` succeeds there;
* if the input ends right after the whitespace run (so `ws` is entirely
  whitespace), `\s+` backtracks from the longest split: the first split that
  lets `(.+)$` succeed puts the last non-newline character of `ws` into the
  group (everything after it is newlines), and that character must not be the
  first character of `ws` (`\s+` needs at least one character).
Returns `(title, rest)` where `rest` is the input remaining after the
match. -/
def headingTitleRest (ws : List Char) : Option (List Char × List Char) :=
  match ws.dropWhile isWs with
  | z :: zs =>
    some (z :: zs.takeWhile (fun x => ¬(x = '\n')), zs.dropWhile (fun x => ¬(x = '\n')))
  | [] =>
    match ws.reverse.dropWhile (fun x => x = '\n') with
    | p :: _ :: _ => some ([p], (ws.reverse.takeWhile (fun x => x = '\n')).reverse)
    | _ => none

/-- One match attempt of `^(#{1,6})\s+(.+)$` at a line start.  `#{1,6}` is
greedy, but if the maximal run of `#` has length `k`, every shorter choice
leaves a `#` as the next character, which `\s+` rejects; so a match requires
`1 ≤ k ≤ 6` and a whitespace character right after the run.  Returns
`(level, title, rest)` where `rest` is the input remaining after the match. -/
def headingMatchAt (s : List Char) : Option (Nat × List Char × List Char) :=
  if 1 ≤ (s.takeWhile isHash).length ∧ (s.takeWhile isHash).length ≤ 6 then
    match s.dropWhile isHash with
    | [] => none
    | c :: t =>
      if isWs c then
        (headingTitleRest (c :: t)).map
          (fun tr => ((s.takeWhile isHash).length, tr.1, tr.2))
      else none
  else none

theorem headingTitleRest_rest_lt (ws title rest : List Char)
    (h : headingTitleRest ws = some (title, rest)) : rest.length < ws.length := by
  unfold headingTitleRest at h
  split at h
  · rename_i z zs hzzs
    simp only [Option.some.injEq, Prod.mk.injEq] at h
    have h1 : rest.length ≤ zs.length := by
      rw [← h.2]
      exact dropWhile_length_le _ zs
    have h2 : (z :: zs).length ≤ ws.length := by
      rw [← hzzs]
      exact dropWhile_length_le _ ws
    simp only [List.length_cons] at h2
    omega
  · split at h
    · rename_i p q ps hps
      simp only [Option.some.injEq, Prod.mk.injEq] at h
      have hsplit : (ws.reverse.takeWhile (fun x => x = '\n')).length
          + (ws.reverse.dropWhile (fun x => x = '\n')).length = ws.length := by
        have := takeWhile_dropWhile_length (fun x => x = '\n') ws.reverse
        simpa [List.length_reverse] using this
      have h1 : rest.length = (ws.reverse.takeWhile (fun x => x = '\n')).length := by
        rw [← h.2, List.length_reverse]
      have h2 : (p :: q :: ps).length = (ws.reverse.dropWhile (fun x => x = '\n')).length := by
        rw [hps]
      simp only [List.length_cons] at h2
      omega
    · exact absurd h (by simp)

theorem headingMatchAt_level (s : List Char) (lvl : Nat) (title rest : List Char)
    (h : headingMatchAt s = some (lvl, title, rest)) : 1 ≤ lvl ∧ lvl ≤ 6 := by
  unfold headingMatchAt at h
  split at h
  · rename_i hk
    split at h
    · exact absurd h (by simp)
    · split at h
      · rename_i c t hct hw
        match htr : headingTitleRest (c :: t) with
        | none => rw [htr] at h; exact absurd h (by simp)
        | some tr =>
          rw [htr] at h
          simp only [Option.map_some', Option.some.injEq, Prod.mk.injEq] at h
          exact ⟨h.1 ▸ hk.1, h.1 ▸ hk.2⟩
      · exact absurd h (by simp)
  · exact absurd h (by simp)

theorem headingMatchAt_rest_lt (s : List Char) (lvl : Nat) (title rest : List Char)
    (h : headingMatchAt s = some (lvl, title, rest)) : rest.length + 1 < s.length := by
  unfold headingMatchAt at h
  split at h
  · rename_i hk
    split at h
    · exact absurd h (by simp)
    · rename_i c t hct
      split at h
      · match htr : headingTitleRest (c :: t) with
        | none => rw [htr] at h; exact absurd h (by simp)
        | some (ti, re) =>
          rw [htr] at h
          simp only [Option.map_some', Option.some.injEq, Prod.mk.injEq] at h
          have h1 : rest.length < (c :: t).length := by
            rw [← h.2.2]
            exact headingTitleRest_rest_lt (c :: t) ti re htr
          have hsplit : (s.takeWhile isHash).length + (s.dropWhile isHash).length
              = s.length := takeWhile_dropWhile_length isHash s
          have h2 : (c :: t).length = (s.dropWhile isHash).length := by rw [hct]
          simp only [List.length_cons] at h1 h2
          omega
      · exact absurd h (by simp)
  · exact absurd h (by simp)

/-- `re.findall` over the whole input: the scan starts at the beginning of the
input (a line start); after a match the scan resumes at the end of the match,
which lies at the end of a line (just before its newline, or at the end of
input), so the next candidate anchor for `^` is the start of the next line.
When the attempt at a line start fails, no match can begin before the next
line start (every position in between is not preceded by a newline). -/
def findHeadings : List Char → List (Nat × List Char)
  | [] => []
  | c :: t =>
    match hm : headingMatchAt (c :: t) with
    | some (lvl, title, rest) => (lvl, title) :: findHeadings (dropLine rest)
    | none => findHeadings (dropLine (c :: t))
termination_by s => s.length
decreasing_by
  · have h1 := headingMatchAt_rest_lt _ _ _ _ hm
    have h2 := dropLine_length_le rest
    simp only [List.length_cons] at h1 ⊢
    omega
  · exact dropLine_length_lt c t

/-- The issue string built by `check_heading_hierarchy` for a level jump. -/
def issueMsg (prev lvl : Nat) (title : String) : String :=
  "Heading level jump: H" ++ toString prev ++ " to H" ++ toString lvl
    ++ " - " ++ squote ++ title ++ squote

/-- The loop of `check_heading_hierarchy`: `prev` is `prev_level`
(initially `0`, meaning no heading seen yet); an issue is appended when
`prev_level > 0 and level > prev_level + 1`, and `prev_level` is then set to
the current level unconditionally. -/
def issuesLoop : Nat → List (Nat × List Char) → List String
  | _, [] => []
  | prev, (lvl, title) :: rest =>
    (if 0 < prev ∧ prev + 1 < lvl then [issueMsg prev lvl (String.mk title)] else [])
      ++ issuesLoop lvl rest

/-- `check_heading_hierarchy(file_path)` on the file's text. -/
def check_heading_hierarchy (content : List Char) : List String :=
  issuesLoop 0 (findHeadings content)

unseal findHeadings in
example : findHeadings "## A".toList = [(2, "A".toList)] := by decide
unseal findHeadings in
example : findHeadings "##\nTitle".toList = [(2, "Title".toList)] := by decide
unseal findHeadings in
example : findHeadings "####### x".toList = [] := by decide
unseal findHeadings in
example : findHeadings "# A\n####\nTitle\n".toList = [(1, "A".toList), (4, "Title".toList)] := by decide
unseal findHeadings in
example : findHeadings "##  \n \n".toList = [(2, [' '])] := by decide
unseal findHeadings in
example : findHeadings "## \n".toList = [] := by decide
unseal findHeadings in
example : findHeadings "##\n# real".toList = [(2, "# real".toList)] := by decide

/-!
## Complexity metrics

`analyze_complexity` computes four counts with `re.findall`:
* `headings = len(re.findall(r'^#{1,6}', content, re.MULTILINE))`,
* `links = len(re.findall(r'\[.*?\]\(.*?\)', content))`,
* `code_blocks = len(re.findall(r'```', content)) // 2`,
* `lists = len(re.findall(r'^\s*[-*+]\s', content, re.MULTILINE))`.
-/

/-- Matches of `^#{1,6}` with `re.MULTILINE`: a line whose first character is
`#` yields exactly one match (the greedy run takes `min 6 k` characters of a
`#`-run of length `k`; the scan resumes after it, and no later position on the
same line is preceded by a newline, so no second match can start on that
line); a line not starting with `#` yields none.  Hence the count is the
number of lines whose first character is `#`. -/
def countHeadingLines : List Char → Nat
  | [] => 0
  | c :: t => (if c = '#' then 1 else 0) + countHeadingLines (dropLine (c :: t))
termination_by s => s.length
decreasing_by exact dropLine_length_lt c t

/-- The lazy inner part `\(.*?\)` once `\](\(` has been consumed: scan for the
first `)` reachable through non-newline characters.  Returns the group and
the input remaining after the `)`. -/
def scanClose : List Char → Option (List Char × List Char)
  | [] => none
  | c :: t =>
    if c = ')' then some ([], t)
    else if c = '\n' then none
    else (scanClose t).map (fun vr => (c :: vr.1, vr.2))

/-- The part of a link match after the opening `[`, following the pattern
`\[.*?\]\(.*?\)`: the lazy `.*?` expands one non-newline character at a time,
so the first `]` immediately followed by `(` and by a successful inner scan
wins; a `]` whose continuation fails is swallowed by the outer `.*?` and the
scan goes on.  A newline aborts the attempt (`.` cannot match it).  Returns
`(u, v, rest)`: the two groups of characters and the input remaining after
the closing `)`. -/
def matchLinkBody : List Char → Option (List Char × List Char × List Char)
  | [] => none
  | ']' :: '(' :: t =>
    match scanClose t with
    | some (v, rest) => some ([], v, rest)
    | none => (matchLinkBody ('(' :: t)).map (fun x => (']' :: x.1, x.2.1, x.2.2))
  | c :: t =>
    if c = '\n' then none
    else (matchLinkBody t).map (fun x => (c :: x.1, x.2.1, x.2.2))
termination_by s => s.length

theorem scanClose_rest_lt (s : List Char) : ∀ v rest, scanClose s = some (v, rest) →
    rest.length < s.length := by
  induction s with
  | nil => intro v rest h; simp [scanClose] at h
  | cons c t ih =>
    intro v rest h
    simp only [scanClose] at h
    split at h
    · simp only [Option.some.injEq, Prod.mk.injEq] at h
      rw [← h.2]
      simp
    · split at h
      · simp at h
      · match hs : scanClose t with
        | none => rw [hs] at h; simp at h
        | some (v2, r2) =>
          rw [hs] at h
          simp only [Option.map_some', Option.some.injEq, Prod.mk.injEq] at h
          have := ih v2 r2 hs
          rw [← h.2]
          simp only [List.length_cons]
          omega

theorem matchLinkBody_rest_lt (s : List Char) : ∀ u v rest,
    matchLinkBody s = some (u, v, rest) → rest.length < s.length := by
  induction s using matchLinkBody.induct with
  | case1 => intro u v rest h; simp [matchLinkBody] at h
  | case2 t v2 r2 hs =>
    intro u v rest h
    simp only [matchLinkBody, hs, Option.some.injEq, Prod.mk.injEq] at h
    have := scanClose_rest_lt t v2 r2 hs
    rw [← h.2.2]
    simp only [List.length_cons]
    omega
  | case3 t hs ih =>
    intro u v rest h
    simp only [matchLinkBody, hs] at h
    match hm : matchLinkBody ('(' :: t) with
    | none => rw [hm] at h; simp at h
    | some (u2, v2, r2) =>
      rw [hm] at h
      simp only [Option.map_some', Option.some.injEq, Prod.mk.injEq] at h
      have := ih u2 v2 r2 hm
      rw [← h.2.2]
      simp only [List.length_cons] at this ⊢
      omega
  | case4 t hshape =>
    intro u v rest h
    simp [matchLinkBody] at h
  | case5 c t hshape hne ih =>
    intro u v rest h
    rw [matchLinkBody.eq_def] at h
    split at h
    · simp at h
    · rename_i t1 heq
      rw [List.cons.injEq] at heq
      exact (hshape t1 heq.1 heq.2).elim
    · rename_i c2 t2 hsh2 heq
      rw [List.cons.injEq] at heq
      obtain ⟨hc, ht⟩ := heq
      subst hc
      subst ht
      split at h
      · simp at h
      · match hm : matchLinkBody t with
        | none => rw [hm] at h; simp at h
        | some (u2, v2, r2) =>
          rw [hm] at h
          simp only [Option.map_some', Option.some.injEq, Prod.mk.injEq] at h
          have := ih u2 v2 r2 hm
          rw [← h.2.2]
          simp only [List.length_cons]
          omega

/-- `re.findall(r'\[.*?\]\(.*?\)', content)`: try a match at every position
(leftmost), skipping one character when the position does not start a match,
and resuming after the closing `)` when it does.  Each match is returned as
the full matched substring. -/
def linkMatches : List Char → List (List Char)
  | [] => []
  | c :: t =>
    if c = '[' then
      match hm : matchLinkBody t with
      | some (u, v, rest) =>
        ('[' :: u ++ ']' :: '(' :: v ++ [')']) :: linkMatches rest
      | none => linkMatches t
    else linkMatches t
termination_by s => s.length
decreasing_by
  · have h1 : rest.length < t.length := matchLinkBody_rest_lt t u v rest hm
    simp only [List.length_cons]
    omega
  · simp
  · simp

/-- Non-overlapping occurrences of three consecutive backticks, scanning left
to right (`re.findall(r'```', content)`). -/
def countTriple : List Char → Nat
  | a :: b :: c :: r =>
    if a = backtick ∧ b = backtick ∧ c = backtick then 1 + countTriple r
    else countTriple (b :: c :: r)
  | _ :: r => countTriple r
  | [] => 0

/-- Matches of `^\s*[-*+]\s` with `re.MULTILINE`.  At a line-start anchor the
greedy `\s*` is forced: any shorter choice leaves a whitespace character where
`[-*+]` must match, so the attempt succeeds exactly when the first
non-whitespace character reachable from the anchor is a marker followed by a
whitespace character; the match then ends right after that whitespace
character.  When the attempt fails, the next anchor is the start of the line
after the first non-whitespace character (anchors in between lie inside the
same whitespace run and fail for the same reason, and positions after the
failing character are not line starts until the next newline).  When it
succeeds with a non-newline whitespace character after the marker, the scan
resumes in the middle of the marker line and the next anchor is again the
start of the following line. -/
def countListItems (s : List Char) : Nat :=
  match hd : s.dropWhile isWs with
  | [] => 0
  | m :: rest =>
    if isMarker m then
      match hr : rest with
      | w :: r =>
        if isWs w then
          1 + (if w = '\n' then countListItems r else countListItems (dropLine r))
        else countListItems (dropLine rest)
      | [] => 0
    else countListItems (dropLine rest)
termination_by s.length
decreasing_by
  · have h1 := dropWhile_length_le isWs s
    rw [hd] at h1
    simp only [List.length_cons] at h1
    omega
  · have h1 := dropWhile_length_le isWs s
    rw [hd] at h1
    have h2 := dropLine_length_le r
    simp only [List.length_cons] at h1
    omega
  · have h1 := dropWhile_length_le isWs s
    rw [hd] at h1
    have h2 := dropLine_length_le rest
    have h3 := congrArg List.length hr
    simp only [List.length_cons] at h1 h3
    omega
  · have h1 := dropWhile_length_le isWs s
    rw [hd] at h1
    have h2 := dropLine_length_le rest
    simp only [List.length_cons] at h1
    omega

unseal countHeadingLines in
example : countHeadingLines "#\n##x\nno\n# y".toList = 3 := by decide
example : countTriple "`` ``` ``````".toList = 3 := by decide
unseal linkMatches matchLinkBody in
example : linkMatches "[a](b)[c](d)".toList = ["[a](b)".toList, "[c](d)".toList] := by decide
unseal linkMatches matchLinkBody in
example : linkMatches "[a]\n(b)".toList = [] := by decide
unseal linkMatches matchLinkBody in
example : linkMatches "[a]x[b](c)".toList = ["[a]x[b](c)".toList] := by decide
unseal countListItems in
example : countListItems "- a\n  * b\n+c\n-\n".toList = 3 := by decide
unseal countListItems in
example : countListItems "-\tx\n".toList = 1 := by decide
unseal countListItems in
example : countListItems " \n \n- a".toList = 1 := by decide
unseal countListItems in
example : countListItems "-".toList = 0 := by decide
unseal countListItems in
example : countListItems "-\n- x\n".toList = 2 := by decide

/-- The record returned by `analyze_complexity`. -/
structure ComplexityStats where
  headings : Nat
  links : Nat
  code_blocks : Nat
  lists : Nat
  complexity : ℚ
deriving DecidableEq

/-- `analyze_complexity(file_path)` on the file's text.  The Python float
literals `0.5` and `0.3` denote the exact rationals `1/2` and `3/10` here;
`complexity = headings + (links * 0.5) + (code_blocks * 2) + (lists * 0.3)`. -/
def analyze_complexity (content : List Char) : ComplexityStats :=
  { headings := countHeadingLines content
    links := (linkMatches content).length
    code_blocks := countTriple content / 2
    lists := countListItems content
    complexity := (countHeadingLines content : ℚ)
      + ((linkMatches content).length : ℚ) * (5 / 10)
      + ((countTriple content / 2 : Nat) : ℚ) * 2
      + (countListItems content : ℚ) * (3 / 10) }

/-!
## Directory walk and entry points

Both scripts walk the fixed root directory `docs` with `os.walk` (top-down:
the files of a directory are handled before its subdirectories) and select
files whose name ends in `.md`.  A directory is modelled as its list of
(name, content) files and its list of (name, subdirectory) subdirectories;
file contents are `String`s.
-/

/-- Python `name.endswith('.md')`: the name's characters end with `.md`. -/
def endsWithMd (name : String) : Bool := ".md".toList.isSuffixOf name.toList

inductive Dir where
  | mk : List (String × String) → List (String × Dir) → Dir

/-- The files of a directory. -/
def Dir.files : Dir → List (String × String)
  | .mk fs _ => fs

/-- The subdirectories of a directory. -/
def Dir.subdirs : Dir → List (String × Dir)
  | .mk _ ds => ds

mutual

/-- The walk performed by both entry points: for every directory, first the
files whose name ends with `.md` (paired with `os.path.join(root, file)`),
then, recursively, the subdirectories (`os.walk`, top-down). -/
def collectMd (root : String) : Dir → List (String × String)
  | .mk fs ds =>
    fs.filterMap (fun fc =>
      if endsWithMd fc.1 then some (root ++ "/" ++ fc.1, fc.2) else none)
    ++ collectMdDirs root ds

/-- The recursion of `collectMd` over the subdirectory list. -/
def collectMdDirs (root : String) : List (String × Dir) → List (String × String)
  | [] => []
  | nd :: ds => collectMd (root ++ "/" ++ nd.1) nd.2 ++ collectMdDirs root ds

end

mutual

/-- Every file of the tree, with its joined path, its own name and its
content, in walk order; no name filter. -/
def allFiles (root : String) : Dir → List (String × String × String)
  | .mk fs ds =>
    fs.map (fun fc => (root ++ "/" ++ fc.1, fc.1, fc.2))
    ++ allFilesDirs root ds

/-- The recursion of `allFiles` over the subdirectory list. -/
def allFilesDirs (root : String) : List (String × Dir) → List (String × String × String)
  | [] => []
  | nd :: ds => allFiles (root ++ "/" ++ nd.1) nd.2 ++ allFilesDirs root ds

end

/-- All heading-hierarchy issues over the tree, each prefixed with its file
path, in walk order (`all_issues` in the script). -/
def hierarchyAllIssues (docs : Dir) : List String :=
  (collectMd "docs" docs).flatMap (fun pc =>
    (check_heading_hierarchy pc.2.toList).map (fun issue => pc.1 ++ ": " ++ issue))

/-- The entry point of `heading_hierarchy.py`, as the pair (printed lines,
exit code). -/
def hierarchyMain (docs : Dir) : List String × Nat :=
  match hierarchyAllIssues docs with
  | [] => (["✅ All heading hierarchies are correct"], 0)
  | i :: is =>
    ("❌ Heading hierarchy issues found:"
      :: ((i :: is).map (fun issue => "  - " ++ issue)), 1)

/-- Python `"%.1f"`-style formatting used via `f"{...:.1f}"`: the score is
rounded to one decimal place.  Every complexity score is an integer multiple
of `1/10`, so no actual rounding ever occurs and the tie-breaking rule is
irrelevant; `floor (q * 10 + 1/2)` is exact on these values. -/
def formatFixed1 (q : ℚ) : String :=
  toString ((⌊q * 10 + 5 / 10⌋ : ℤ) / 10) ++ "." ++ toString ((⌊q * 10 + 5 / 10⌋ : ℤ) % 10)

/-- The flagged files of `markdown_complexity.py`
(`high_complexity_files`): the walked files whose complexity score is
strictly greater than 50, with their stats. -/
def highComplexityFiles (docs : Dir) : List (String × ComplexityStats) :=
  (collectMd "docs" docs).filterMap (fun pc =>
    if 50 < (analyze_complexity pc.2.toList).complexity
    then some (pc.1, analyze_complexity pc.2.toList) else none)

/-- The entry point of `markdown_complexity.py`, as the pair (printed lines,
exit code). -/
def complexityMain (docs : Dir) : List String × Nat :=
  match highComplexityFiles docs with
  | [] => (["✅ All files have reasonable complexity"], 0)
  | f :: fs =>
    ("❌ High complexity files detected:"
      :: ((f :: fs).map (fun ps => "  - " ++ ps.1 ++ ": complexity=" ++ formatFixed1 ps.2.complexity)), 1)

/-!
## Specification-side characterisations

These definitions restate counts the way the specification describes them;
the theorems below compare them with the transcriptions of the code.
-/

/-- The issues of a heading sequence as the specification describes them: one
issue per consecutive pair whose second level exceeds the first by more than
one. -/
def pairIssues (hs : List (Nat × List Char)) : List String :=
  (hs.zip (hs.drop 1)).filterMap (fun ab =>
    if ab.1.1 + 1 < ab.2.1
    then some (issueMsg ab.1.1 ab.2.1 (String.mk ab.2.2)) else none)

/-- A line is a list item in the sense matched by `^\s*[-*+]\s`: after its
leading whitespace it starts with a marker followed by a whitespace
character; when the marker is the line's last character, the newline that
terminates the line counts (`terminated` tells whether the line is followed
by a newline in the file). -/
def lineIsListItem (line : List Char) (terminated : Bool) : Bool :=
  match line.dropWhile isWs with
  | [] => false
  | [m] => isMarker m && terminated
  | m :: c :: _ => isMarker m && isWs c

/-- Count, line by line, the lines accepted by `lineIsListItem`; the last
line (no trailing newline) is not terminated. -/
def countListLines (s : List Char) : Nat :=
  match hd : s.dropWhile (fun c => ¬(c = '\n')) with
  | [] => if lineIsListItem (s.takeWhile (fun c => ¬(c = '\n'))) false then 1 else 0
  | _ :: r =>
    (if lineIsListItem (s.takeWhile (fun c => ¬(c = '\n'))) true then 1 else 0)
      + countListLines r
termination_by s.length
decreasing_by
  have h1 := dropWhile_length_le (fun c => ¬(c = '\n')) s
  rw [hd] at h1
  simp only [List.length_cons] at h1
  omega

/-- A line is a list item as claim C6 words it: after ignoring leading
whitespace it starts with `-`, `*` or `+` followed by a space character. -/
def lineIsListItemSpaceOnly (line : List Char) : Bool :=
  match line.dropWhile isWs with
  | m :: c :: _ => isMarker m && c = ' '
  | _ => false

/-- Count, line by line, the lines accepted by `lineIsListItemSpaceOnly`. -/
def countListLinesSpaceOnly (s : List Char) : Nat :=
  match hd : s.dropWhile (fun c => ¬(c = '\n')) with
  | [] => if lineIsListItemSpaceOnly (s.takeWhile (fun c => ¬(c = '\n'))) then 1 else 0
  | _ :: r =>
    (if lineIsListItemSpaceOnly (s.takeWhile (fun c => ¬(c = '\n'))) then 1 else 0)
      + countListLinesSpaceOnly r
termination_by s.length
decreasing_by
  have h1 := dropWhile_length_le (fun c => ¬(c = '\n')) s
  rw [hd] at h1
  simp only [List.length_cons] at h1
  omega

/-- The selection claim C7 ascribes to both walks: keep exactly the files
whose own name ends with `.md`, with their joined path and content. -/
def mdSelect (x : String × String × String) : Option (String × String) :=
  if endsWithMd x.2.1 then some (x.1, x.2.2) else none

/-- A file of 60 heading lines and nothing else. -/
def ex60 : String := String.join (List.replicate 60 "#\n")

/-- A file of 50 heading lines and nothing else: complexity exactly 50. -/
def ex50 : String := String.join (List.replicate 50 "#\n")

/-- A file of 10 heading lines and nothing else: complexity 10. -/
def ex10 : String := String.join (List.replicate 10 "#\n")

/-- A `docs` tree holding only the 60-heading file. -/
def docs60 : Dir := Dir.mk [("big.md", ex60)] []

/-- A `docs` tree holding the 50-heading and the 10-heading files. -/
def docsBoundary : Dir := Dir.mk [("fifty.md", ex50), ("ten.md", ex10)] []

/-- A file with exactly three triple-backtick fences. -/
def exFences : String := "```\na\n```\nb\n```\n"

/-!
## Heading-hierarchy theorems
-/

theorem findHeadings_level (s : List Char) : ∀ x ∈ findHeadings s, 1 ≤ x.1 := by
  induction s using findHeadings.induct with
  | case1 => intro x hx; simp [findHeadings] at hx
  | case2 c t lvl title rest hm ih =>
    intro x hx
    rw [findHeadings, hm] at hx
    simp only [List.mem_cons] at hx
    rcases hx with h1 | h2
    · rw [h1]
      exact (headingMatchAt_level _ _ _ _ hm).1
    · exact ih x h2
  | case3 c t hm ih =>
    intro x hx
    rw [findHeadings, hm] at hx
    exact ih x hx

theorem issuesLoop_eq_pairIssues (t : List (Nat × List Char)) :
    ∀ a : Nat × List Char, 1 ≤ a.1 → (∀ x ∈ t, 1 ≤ x.1) →
      issuesLoop a.1 t = pairIssues (a :: t) := by
  induction t with
  | nil => intro a _ _; simp [issuesLoop, pairIssues]
  | cons b t' ih =>
    intro a ha hall
    have hb : 1 ≤ b.1 := hall b (by simp)
    have hall' : ∀ x ∈ t', 1 ≤ x.1 := fun x hx => hall x (by simp [hx])
    have h1 : issuesLoop a.1 (b :: t') =
        (if 0 < a.1 ∧ a.1 + 1 < b.1 then [issueMsg a.1 b.1 (String.mk b.2)] else [])
          ++ issuesLoop b.1 t' := by
      rw [issuesLoop]
    have h2 : pairIssues (a :: b :: t') =
        (if a.1 + 1 < b.1 then [issueMsg a.1 b.1 (String.mk b.2)] else [])
          ++ pairIssues (b :: t') := by
      by_cases hc : a.1 + 1 < b.1 <;>
        simp [pairIssues, List.filterMap_cons, hc]
    rw [h1, ih b hb hall', h2]
    congr 1
    by_cases hc : a.1 + 1 < b.1
    · rw [if_pos hc, if_pos ⟨ha, hc⟩]
    · rw [if_neg hc, if_neg (fun h => hc h.2)]

unseal findHeadings in
/-- C1: for every file, `check_heading_hierarchy` emits an issue for a
heading if and only if it is not the first extracted heading and its level
exceeds the immediately preceding heading's level by more than one — the
issues are exactly those of the consecutive pairs with such a jump, so the
tracked previous level is always the immediately preceding heading's level,
equal levels, decreasing levels, jumps of exactly one and the first heading
never produce an issue.  For heading levels `[2, 4, 4, 1]` exactly one issue
is produced, for the 2-to-4 jump. -/
theorem C1_heading_issue_iff_level_jump :
    (∀ content : List Char,
      check_heading_hierarchy content = pairIssues (findHeadings content))
    ∧ check_heading_hierarchy "## a\n#### b\n#### c\n# d\n".toList
        = [issueMsg 2 4 "b"] := by
  constructor
  · intro content
    rw [check_heading_hierarchy]
    match hh : findHeadings content with
    | [] => simp [issuesLoop, pairIssues]
    | h :: t =>
      have hall := findHeadings_level content
      rw [hh] at hall
      have h1 : 1 ≤ h.1 := hall h (by simp)
      have h2 : issuesLoop 0 (h :: t) = issuesLoop h.1 t := by
        rw [issuesLoop]
        simp
      rw [h2, issuesLoop_eq_pairIssues t h h1 (fun x hx => hall x (by simp [hx]))]
  · decide

unseal findHeadings in
/-- C9: a line consisting only of one to six `#` characters with no text on
the same line is still parsed as a heading, its title taken from the next
non-empty line, because the `\s+` part of the heading pattern matches the
line break; such a heading participates in level-jump detection. -/
theorem C9_bare_hash_line_takes_title_from_next_line :
    findHeadings "####\nTitle\n".toList = [(4, "Title".toList)]
    ∧ check_heading_hierarchy "# A\n####\nTitle\n".toList = [issueMsg 1 4 "Title"] := by
  decide

/-- C4: for either script the exit code is `0` exactly when the aggregated
run result (all hierarchy issues, respectively all flagged files) is empty,
and `1` exactly when it is not. -/
theorem C4_exit_code_iff_findings (docs : Dir) :
    ((hierarchyMain docs).2 = 0 ↔ hierarchyAllIssues docs = [])
    ∧ ((hierarchyMain docs).2 = 1 ↔ hierarchyAllIssues docs ≠ [])
    ∧ ((complexityMain docs).2 = 0 ↔ highComplexityFiles docs = [])
    ∧ ((complexityMain docs).2 = 1 ↔ highComplexityFiles docs ≠ []) := by
  refine ⟨?_, ?_, ?_, ?_⟩
  · rcases h : hierarchyAllIssues docs with _ | ⟨i, is⟩ <;> simp [hierarchyMain, h]
  · rcases h : hierarchyAllIssues docs with _ | ⟨i, is⟩ <;> simp [hierarchyMain, h]
  · rcases h : highComplexityFiles docs with _ | ⟨f, fs⟩ <;> simp [complexityMain, h]
  · rcases h : highComplexityFiles docs with _ | ⟨f, fs⟩ <;> simp [complexityMain, h]

/-- C8: a run of either checker is a pure function of the file tree it
reads — the model has no other input — so two runs over the unchanged tree
produce identical output lines and identical exit codes. -/
theorem C8_two_runs_identical (docs : Dir) :
    hierarchyMain docs = hierarchyMain docs
    ∧ complexityMain docs = complexityMain docs :=
  ⟨rfl, rfl⟩


theorem collectMd_eq_filter_allFiles : ∀ (root : String) (d : Dir),
    collectMd root d = (allFiles root d).filterMap mdSelect :=
  @collectMd.induct
    (fun root d => collectMd root d = (allFiles root d).filterMap mdSelect)
    (fun root ds => collectMdDirs root ds = (allFilesDirs root ds).filterMap mdSelect)
    (by
      intro root fs ds ih
      rw [collectMd, allFiles, List.filterMap_append, ih, List.filterMap_map]
      rfl)
    (by
      intro root
      rw [collectMdDirs, allFilesDirs]
      rfl)
    (by
      intro root nd ds ih1 ih2
      rw [collectMdDirs, allFilesDirs, List.filterMap_append, ih1, ih2])

/-- C7: from the fixed root, both scripts analyze exactly the files whose
names end with `.md`: the walked list equals the list of all files of the
tree, arbitrarily deep, filtered by the `.md` name suffix; a concrete tree
with a nested subdirectory and a non-`.md` file walks as expected. -/
theorem C7_walk_exactly_md_files :
    (∀ (root : String) (d : Dir),
      collectMd root d = (allFiles root d).filterMap mdSelect)
    ∧ collectMd "docs" (Dir.mk [("a.md", "# A"), ("notes.txt", "x")]
        [("sub", Dir.mk [("b.md", "# B")] [])])
      = [("docs/a.md", "# A"), ("docs/sub/b.md", "# B")] := by
  refine ⟨collectMd_eq_filter_allFiles, ?_⟩
  decide

/-!
## Complexity theorems
-/

unseal countListItems countHeadingLines linkMatches matchLinkBody in
/-- C5: the code-block-pair count is the number of (non-overlapping)
triple-backtick occurrences divided by two with floor division; a file with
exactly three fences yields one pair. -/
theorem C5_code_block_pairs_floor_div :
    (∀ content : List Char,
      (analyze_complexity content).code_blocks = countTriple content / 2)
    ∧ countTriple exFences.toList = 3
    ∧ (analyze_complexity exFences.toList).code_blocks = 1 := by
  refine ⟨fun content => rfl, by decide, by decide⟩

set_option maxRecDepth 40000 in
unseal countListItems countHeadingLines linkMatches matchLinkBody in
theorem ex60_counts :
    countHeadingLines ex60.toList = 60 ∧ (linkMatches ex60.toList).length = 0
    ∧ countTriple ex60.toList = 0 ∧ countListItems ex60.toList = 0 := by
  decide

theorem ex60_stats : analyze_complexity ex60.toList
    = ⟨60, 0, 0, 0, 60⟩ := by
  have h := ex60_counts
  simp only [analyze_complexity, h.1, h.2.1, h.2.2.1, h.2.2.2,
    ComplexityStats.mk.injEq]
  norm_num

theorem formatFixed1_sixty : formatFixed1 60 = "60.0" := by
  have hfl : (⌊(60 : ℚ) * 10 + 5 / 10⌋ : ℤ) = 600 := by
    rw [Int.floor_eq_iff]
    norm_num
  simp only [formatFixed1, hfl]
  decide

/-- C3: the complexity score is
`headings * 1 + links * 0.5 + code_block_pairs * 2 + list_items * 0.3` over
the four raw counts; a file of 60 heading lines and nothing else scores 60.0,
is flagged, the run exits with code 1 and its report line carries
`complexity=60.0`. -/
theorem C3_complexity_formula :
    (∀ content : List Char,
      (analyze_complexity content).complexity
        = (analyze_complexity content).headings * 1
          + (analyze_complexity content).links * (5 / 10 : ℚ)
          + (analyze_complexity content).code_blocks * 2
          + (analyze_complexity content).lists * (3 / 10 : ℚ))
    ∧ (analyze_complexity ex60.toList).complexity = 60
    ∧ complexityMain docs60
        = (["❌ High complexity files detected:",
            "  - docs/big.md: complexity=60.0"], 1) := by
  refine ⟨?_, ?_, ?_⟩
  · intro content
    simp only [analyze_complexity]
    ring
  · rw [ex60_stats]
  · have hcollect : collectMd "docs" docs60 = [("docs/big.md", ex60)] := by decide
    have hflag : highComplexityFiles docs60 = [("docs/big.md", ⟨60, 0, 0, 0, 60⟩)] := by
      simp only [highComplexityFiles]
      rw [hcollect]
      simp only [List.filterMap_cons, List.filterMap_nil, ex60_stats]
      rw [if_pos (by norm_num)]
    simp only [complexityMain, hflag, formatFixed1_sixty, List.map_cons, List.map_nil]
    decide

set_option maxRecDepth 40000 in
unseal countListItems countHeadingLines linkMatches matchLinkBody in
theorem ex50_counts :
    countHeadingLines ex50.toList = 50 ∧ (linkMatches ex50.toList).length = 0
    ∧ countTriple ex50.toList = 0 ∧ countListItems ex50.toList = 0 := by
  decide

set_option maxRecDepth 40000 in
unseal countListItems countHeadingLines linkMatches matchLinkBody in
theorem ex10_counts :
    countHeadingLines ex10.toList = 10 ∧ (linkMatches ex10.toList).length = 0
    ∧ countTriple ex10.toList = 0 ∧ countListItems ex10.toList = 0 := by
  decide

theorem ex50_stats : analyze_complexity ex50.toList = ⟨50, 0, 0, 0, 50⟩ := by
  have h := ex50_counts
  simp only [analyze_complexity, h.1, h.2.1, h.2.2.1, h.2.2.2,
    ComplexityStats.mk.injEq]
  norm_num

theorem ex10_stats : analyze_complexity ex10.toList = ⟨10, 0, 0, 0, 10⟩ := by
  have h := ex10_counts
  simp only [analyze_complexity, h.1, h.2.1, h.2.2.1, h.2.2.2,
    ComplexityStats.mk.injEq]
  norm_num

/-- C2: a walked file is flagged as high complexity exactly when its score is
strictly greater than 50; a file scoring exactly 50, and the 10-heading file
scoring 10.0, are not flagged, and a tree holding only such files exits with
code 0. -/
theorem C2_high_complexity_iff_score_gt_50 :
    (∀ (docs : Dir) (p c : String),
      (p, c) ∈ collectMd "docs" docs →
        ((p, analyze_complexity c.toList) ∈ highComplexityFiles docs
          ↔ 50 < (analyze_complexity c.toList).complexity))
    ∧ (analyze_complexity ex50.toList).complexity = 50
    ∧ (analyze_complexity ex10.toList).complexity = 10
    ∧ highComplexityFiles docsBoundary = []
    ∧ (complexityMain docsBoundary).2 = 0 := by
  have hcollect : collectMd "docs" docsBoundary
      = [("docs/fifty.md", ex50), ("docs/ten.md", ex10)] := by decide
  have hflag : highComplexityFiles docsBoundary = [] := by
    simp only [highComplexityFiles]
    rw [hcollect]
    simp only [List.filterMap_cons, List.filterMap_nil, ex50_stats, ex10_stats]
    rw [if_neg (by norm_num), if_neg (by norm_num)]
  refine ⟨?_, by rw [ex50_stats], by rw [ex10_stats], hflag, by simp [complexityMain, hflag]⟩
  intro docs p c hmem
  constructor
  · intro hin
    simp only [highComplexityFiles, List.mem_filterMap] at hin
    obtain ⟨pc, hpc, hsome⟩ := hin
    by_cases hlt : 50 < (analyze_complexity pc.2.toList).complexity
    · rw [if_pos hlt] at hsome
      simp only [Option.some.injEq, Prod.mk.injEq] at hsome
      rw [hsome.2] at hlt
      exact hlt
    · rw [if_neg hlt] at hsome
      exact absurd hsome (by simp)
  · intro hlt
    simp only [highComplexityFiles, List.mem_filterMap]
    exact ⟨(p, c), hmem, by rw [if_pos hlt]⟩

set_option maxRecDepth 40000 in
/-- Witness for the membership part of C2, at the boundary tree. -/
theorem C2_high_complexity_iff_score_gt_50_witness :
    ("docs/fifty.md", analyze_complexity ex50.toList) ∈ highComplexityFiles docsBoundary
      ↔ 50 < (analyze_complexity ex50.toList).complexity :=
  C2_high_complexity_iff_score_gt_50.1 docsBoundary "docs/fifty.md" ex50 (by decide)

/-!
## Link matches stay on one line
-/

theorem scanClose_no_newline (s : List Char) : ∀ v rest,
    scanClose s = some (v, rest) → '\n' ∉ v := by
  induction s with
  | nil => intro v rest h; simp [scanClose] at h
  | cons c t ih =>
    intro v rest h
    simp only [scanClose] at h
    split at h
    · simp only [Option.some.injEq, Prod.mk.injEq] at h
      rw [← h.1]
      simp
    · split at h
      · simp at h
      · rename_i hcp hcn
        match hs : scanClose t with
        | none => rw [hs] at h; simp at h
        | some (v2, r2) =>
          rw [hs] at h
          simp only [Option.map_some', Option.some.injEq, Prod.mk.injEq] at h
          rw [← h.1]
          intro hmem
          rcases List.mem_cons.mp hmem with h1 | h2
          · exact hcn h1.symm
          · exact ih v2 r2 hs h2

theorem matchLinkBody_no_newline (s : List Char) : ∀ u v rest,
    matchLinkBody s = some (u, v, rest) → '\n' ∉ u ∧ '\n' ∉ v := by
  induction s using matchLinkBody.induct with
  | case1 => intro u v rest h; simp [matchLinkBody] at h
  | case2 t v2 r2 hs =>
    intro u v rest h
    simp only [matchLinkBody, hs, Option.some.injEq, Prod.mk.injEq] at h
    refine ⟨by rw [← h.1]; simp, ?_⟩
    rw [← h.2.1]
    exact scanClose_no_newline t v2 r2 hs
  | case3 t hs ih =>
    intro u v rest h
    simp only [matchLinkBody, hs] at h
    match hm : matchLinkBody ('(' :: t) with
    | none => rw [hm] at h; simp at h
    | some (u2, v2, r2) =>
      rw [hm] at h
      simp only [Option.map_some', Option.some.injEq, Prod.mk.injEq] at h
      have hih := ih u2 v2 r2 hm
      refine ⟨?_, by rw [← h.2.1]; exact hih.2⟩
      rw [← h.1]
      intro hmem
      rcases List.mem_cons.mp hmem with h1 | h2
      · exact absurd h1.symm (by decide)
      · exact hih.1 h2
  | case4 t hshape =>
    intro u v rest h
    simp [matchLinkBody] at h
  | case5 c t hshape hne ih =>
    intro u v rest h
    rw [matchLinkBody.eq_def] at h
    split at h
    · simp at h
    · rename_i t1 heq
      rw [List.cons.injEq] at heq
      exact (hshape t1 heq.1 heq.2).elim
    · rename_i c2 t2 hsh2 heq
      rw [List.cons.injEq] at heq
      obtain ⟨hc, ht⟩ := heq
      subst hc
      subst ht
      split at h
      · simp at h
      · match hm : matchLinkBody t with
        | none => rw [hm] at h; simp at h
        | some (u2, v2, r2) =>
          rw [hm] at h
          simp only [Option.map_some', Option.some.injEq, Prod.mk.injEq] at h
          have hih := ih u2 v2 r2 hm
          refine ⟨?_, by rw [← h.2.1]; exact hih.2⟩
          rw [← h.1]
          intro hmem
          rcases List.mem_cons.mp hmem with h1 | h2
          · exact hne h1.symm
          · exact hih.1 h2

/-- C10: every counted link match lies entirely within a single line — no
match returned by the link scan contains a newline, so a `[`…`]` part and a
`(`…`)` part on different lines are never counted as a link. -/
theorem C10_link_matches_contain_no_newline :
    ∀ (content : List Char) (m : List Char), m ∈ linkMatches content → '\n' ∉ m := by
  intro content
  induction content using linkMatches.induct with
  | case1 => intro m hm; simp [linkMatches] at hm
  | case2 t u v rest hmb ih =>
    intro m hm
    rw [linkMatches, hmb] at hm
    rcases List.mem_cons.mp hm with h1 | h2
    · have hnl := matchLinkBody_no_newline t u v rest hmb
      rw [h1]
      intro hmem
      rcases List.mem_cons.mp hmem with ha | hb
      · exact absurd ha.symm (by decide)
      · rcases List.mem_append.mp hb with hc | hd
        · rcases List.mem_append.mp hc with he | hf
          · exact hnl.1 he
          · rcases List.mem_cons.mp hf with hg | hh
            · exact absurd hg.symm (by decide)
            · rcases List.mem_cons.mp hh with hi | hj
              · exact absurd hi.symm (by decide)
              · exact hnl.2 hj
        · exact absurd hd (by decide)
    · exact ih m h2
  | case3 t hmb ih =>
    intro m hm
    rw [linkMatches, hmb] at hm
    exact ih m hm
  | case4 c t hne ih =>
    intro m hm
    rw [linkMatches.eq_def] at hm
    split at hm
    · simp at hm
    · rename_i c2 t2 heq
      rw [List.cons.injEq] at heq
      split at hm
      · rename_i hc2
        exact (hne (heq.1.trans hc2)).elim
      · exact ih m (heq.2 ▸ hm)

/-!
## List-item counting: code vs specification
-/

theorem head_dropWhile_false (p : Char → Bool) (l : List Char) :
    ∀ c t, l.dropWhile p = c :: t → p c = false := by
  induction l with
  | nil => intro c t h; simp at h
  | cons a l' ih =>
    intro c t h
    rw [List.dropWhile_cons] at h
    split at h
    · exact ih c t h
    · rename_i hp
      rw [List.cons.injEq] at h
      rw [← h.1]
      exact Bool.not_eq_true _ |>.mp hp

theorem marker_not_ws (m : Char) (h : isMarker m = true) : isWs m = false := by
  simp only [isMarker, Bool.or_eq_true, decide_eq_true_eq] at h
  rcases h with (h | h) | h <;> rw [h] <;> decide

theorem not_ws_ne_newline (m : Char) (h : isWs m = false) : ¬(m = '\n') := by
  intro hm
  rw [hm] at h
  simp [isWs] at h

theorem dropLine_eq_tail_dropWhile (r : List Char) :
    dropLine r = (r.dropWhile (fun c => ¬(c = '\n'))).tail := by
  induction r with
  | nil => simp [dropLine]
  | cons c t ih =>
    by_cases hc : c = '\n'
    · subst hc
      simp [dropLine, List.dropWhile_cons]
    · simp [dropLine, List.dropWhile_cons, hc, ih]

theorem lineIsListItem_ws_cons (c : Char) (l : List Char) (b : Bool)
    (hc : isWs c = true) : lineIsListItem (c :: l) b = lineIsListItem l b := by
  simp [lineIsListItem, List.dropWhile_cons, hc]

theorem countListLines_ws_cons (c : Char) (t : List Char) (hc : isWs c = true) :
    countListLines (c :: t) = countListLines t := by
  by_cases hcnl : c = '\n'
  · subst hcnl
    rw [countListLines]
    have hdw : ('\n' :: t).dropWhile (fun c => ¬(c = '\n')) = '\n' :: t := by
      simp [List.dropWhile_cons]
    rw [hdw]
    simp [lineIsListItem, List.takeWhile_cons]
  · rw [countListLines, countListLines]
    have hdw : (c :: t).dropWhile (fun x => ¬(x = '\n')) = t.dropWhile (fun x => ¬(x = '\n')) := by
      simp [List.dropWhile_cons, hcnl]
    have htw : (c :: t).takeWhile (fun x => ¬(x = '\n')) = c :: t.takeWhile (fun x => ¬(x = '\n')) := by
      simp [List.takeWhile_cons, hcnl]
    rw [hdw, htw]
    simp only [lineIsListItem_ws_cons, hc]

theorem countListItems_nil_case (x : List Char) (hd : x.dropWhile isWs = []) :
    countListItems x = 0 := by
  rw [countListItems.eq_def]
  split
  · rfl
  · rename_i m rest hd2
    rw [hd] at hd2
    exact absurd hd2 (by simp)

theorem countListItems_marker_ws (x : List Char) (m w : Char) (r : List Char)
    (hd : x.dropWhile isWs = m :: w :: r) (hmark : isMarker m = true)
    (hw : isWs w = true) :
    countListItems x
      = 1 + (if w = '\n' then countListItems r else countListItems (dropLine r)) := by
  rw [countListItems.eq_def]
  split
  · rename_i hd2
    rw [hd] at hd2
    exact absurd hd2 (by simp)
  · rename_i m2 rest2 hd2
    rw [hd] at hd2
    rw [List.cons.injEq] at hd2
    obtain ⟨hm2, hrest2⟩ := hd2
    subst hm2
    subst hrest2
    rw [if_pos hmark]
    show (if isWs w = true
        then 1 + (if w = '\n' then countListItems r else countListItems (dropLine r))
        else countListItems (dropLine (w :: r)))
      = 1 + (if w = '\n' then countListItems r else countListItems (dropLine r))
    rw [if_pos hw]

theorem countListItems_marker_not_ws (x : List Char) (m w : Char) (r : List Char)
    (hd : x.dropWhile isWs = m :: w :: r) (hmark : isMarker m = true)
    (hw : isWs w = false) :
    countListItems x = countListItems (dropLine (w :: r)) := by
  rw [countListItems.eq_def]
  split
  · rename_i hd2
    rw [hd] at hd2
    exact absurd hd2 (by simp)
  · rename_i m2 rest2 hd2
    rw [hd] at hd2
    rw [List.cons.injEq] at hd2
    obtain ⟨hm2, hrest2⟩ := hd2
    subst hm2
    subst hrest2
    rw [if_pos hmark]
    show (if isWs w = true
        then 1 + (if w = '\n' then countListItems r else countListItems (dropLine r))
        else countListItems (dropLine (w :: r)))
      = countListItems (dropLine (w :: r))
    rw [if_neg (by rw [hw]; exact Bool.false_ne_true)]

theorem countListItems_marker_last (x : List Char) (m : Char)
    (hd : x.dropWhile isWs = [m]) (hmark : isMarker m = true) :
    countListItems x = 0 := by
  rw [countListItems.eq_def]
  split
  · rename_i hd2
    exact absurd (hd.symm.trans hd2) (by simp)
  · rename_i m2 rest2 hd2
    rw [hd] at hd2
    rw [List.cons.injEq] at hd2
    obtain ⟨hm2, hrest2⟩ := hd2
    subst hm2
    subst hrest2
    rw [if_pos hmark]

theorem countListItems_not_marker (x : List Char) (m : Char) (rest : List Char)
    (hd : x.dropWhile isWs = m :: rest) (hmark : isMarker m = false) :
    countListItems x = countListItems (dropLine rest) := by
  rw [countListItems.eq_def]
  split
  · rename_i hd2
    rw [hd] at hd2
    exact absurd hd2 (by simp)
  · rename_i m2 rest2 hd2
    rw [hd] at hd2
    rw [List.cons.injEq] at hd2
    obtain ⟨hm2, hrest2⟩ := hd2
    subst hm2
    subst hrest2
    rw [if_neg (by rw [hmark]; exact Bool.false_ne_true)]

theorem countListLines_last_line (s : List Char)
    (hd : s.dropWhile (fun c => ¬(c = '\n')) = []) :
    countListLines s
      = if lineIsListItem (s.takeWhile (fun c => ¬(c = '\n'))) false then 1 else 0 := by
  rw [countListLines.eq_def]
  split
  · rfl
  · rename_i c r hd2
    rw [hd] at hd2
    exact absurd hd2 (by simp)

theorem countListLines_line_cons (s : List Char) (c : Char) (r : List Char)
    (hd : s.dropWhile (fun c => ¬(c = '\n')) = c :: r) :
    countListLines s
      = (if lineIsListItem (s.takeWhile (fun c => ¬(c = '\n'))) true then 1 else 0)
        + countListLines r := by
  rw [countListLines.eq_def]
  split
  · rename_i hd2
    rw [hd] at hd2
    exact absurd hd2 (by simp)
  · rename_i c2 r2 hd2
    rw [hd] at hd2
    rw [List.cons.injEq] at hd2
    obtain ⟨hc2, hr2⟩ := hd2
    subst hr2
    rfl

theorem countListLines_nil : countListLines [] = 0 := by
  rw [countListLines_last_line [] (by simp)]
  simp [lineIsListItem]

theorem countListLines_eq_dropWhile (x : List Char) :
    countListLines x = countListLines (x.dropWhile isWs) := by
  induction x with
  | nil => simp
  | cons c t ih =>
    by_cases hc : isWs c
    · rw [countListLines_ws_cons c t hc, List.dropWhile_cons]
      simp [hc, ih]
    · simp [List.dropWhile_cons, hc]

theorem countListItems_eq_countListLines (s : List Char) :
    countListItems s = countListLines s := by
  induction s using countListItems.induct with
  | case1 x hd =>
    rw [countListItems_nil_case x hd, countListLines_eq_dropWhile, hd, countListLines_nil]
  | case2 x m hmark w r hd hw hd2 ih1 ih2 =>
    have hmw := head_dropWhile_false isWs x m (w :: r) hd
    have hmn := not_ws_ne_newline m hmw
    rw [countListItems_marker_ws x m w r hd hmark hw, countListLines_eq_dropWhile, hd]
    by_cases hwn : w = '\n'
    · subst hwn
      rw [if_pos rfl]
      have hdw : (m :: '\n' :: r).dropWhile (fun c => ¬(c = '\n')) = '\n' :: r := by
        simp [List.dropWhile_cons, hmn]
      rw [countListLines_line_cons _ '\n' r hdw]
      have htw : (m :: '\n' :: r).takeWhile (fun c => ¬(c = '\n')) = [m] := by
        simp [List.takeWhile_cons, hmn]
      rw [htw]
      have hli : lineIsListItem [m] true = true := by
        simp [lineIsListItem, List.dropWhile_cons, hmw, hmark]
      rw [hli, if_pos rfl, ih1]
    · rw [if_neg hwn]
      have hdw : (m :: w :: r).dropWhile (fun c => ¬(c = '\n'))
          = r.dropWhile (fun c => ¬(c = '\n')) := by
        simp [List.dropWhile_cons, hmn, hwn]
      have htw : (m :: w :: r).takeWhile (fun c => ¬(c = '\n'))
          = m :: w :: r.takeWhile (fun c => ¬(c = '\n')) := by
        simp [List.takeWhile_cons, hmn, hwn]
      have hli : ∀ b, lineIsListItem (m :: w :: r.takeWhile (fun c => ¬(c = '\n'))) b
          = true := by
        intro b
        simp [lineIsListItem, List.dropWhile_cons, hmw, hmark, hw]
      match hres : r.dropWhile (fun c => ¬(c = '\n')) with
      | [] =>
        rw [countListLines_last_line _ (hdw.trans hres), htw, hli false, if_pos rfl]
        have hdl : dropLine r = [] := by
          rw [dropLine_eq_tail_dropWhile, hres]
          rfl
        rw [ih2, hdl, countListLines_nil]
      | c2 :: r2 =>
        rw [countListLines_line_cons _ c2 r2 (hdw.trans hres), htw, hli true, if_pos rfl]
        have hdl : dropLine r = r2 := by
          rw [dropLine_eq_tail_dropWhile, hres]
          rfl
        rw [ih2, hdl]
  | case3 x m hmark w r hd hw hd2 ih =>
    have hmw := head_dropWhile_false isWs x m (w :: r) hd
    have hmn := not_ws_ne_newline m hmw
    have hwf : isWs w = false := Bool.not_eq_true _ |>.mp hw
    have hwn : ¬(w = '\n') := not_ws_ne_newline w hwf
    rw [countListItems_marker_not_ws x m w r hd hmark hwf,
        countListLines_eq_dropWhile, hd]
    have hdlw : dropLine (w :: r) = dropLine r := by
      simp [dropLine, hwn]
    have hdw : (m :: w :: r).dropWhile (fun c => ¬(c = '\n'))
        = r.dropWhile (fun c => ¬(c = '\n')) := by
      simp [List.dropWhile_cons, hmn, hwn]
    have htw : (m :: w :: r).takeWhile (fun c => ¬(c = '\n'))
        = m :: w :: r.takeWhile (fun c => ¬(c = '\n')) := by
      simp [List.takeWhile_cons, hmn, hwn]
    have hli : ∀ b, lineIsListItem (m :: w :: r.takeWhile (fun c => ¬(c = '\n'))) b
        = false := by
      intro b
      simp [lineIsListItem, List.dropWhile_cons, hmw, hmark, hwf]
    match hres : r.dropWhile (fun c => ¬(c = '\n')) with
    | [] =>
      rw [countListLines_last_line _ (hdw.trans hres), htw, hli false,
        if_neg Bool.false_ne_true]
      have hdl : dropLine r = [] := by
        rw [dropLine_eq_tail_dropWhile, hres]
        rfl
      rw [ih, hdlw, hdl, countListLines_nil]
    | c2 :: r2 =>
      rw [countListLines_line_cons _ c2 r2 (hdw.trans hres), htw, hli true,
        if_neg Bool.false_ne_true]
      have hdl : dropLine r = r2 := by
        rw [dropLine_eq_tail_dropWhile, hres]
        rfl
      rw [ih, hdlw, hdl]
      exact (Nat.zero_add _).symm
  | case4 x m hmark hd hd2 =>
    have hmw := head_dropWhile_false isWs x m [] hd
    have hmn := not_ws_ne_newline m hmw
    rw [countListItems_marker_last x m hd hmark, countListLines_eq_dropWhile, hd]
    have hdw : [m].dropWhile (fun c => ¬(c = '\n')) = [] := by
      simp [List.dropWhile_cons, hmn]
    rw [countListLines_last_line _ hdw]
    have htw : [m].takeWhile (fun c => ¬(c = '\n')) = [m] := by
      simp [List.takeWhile_cons, hmn]
    rw [htw]
    have hli : lineIsListItem [m] false = false := by
      simp [lineIsListItem, List.dropWhile_cons, hmw]
    rw [hli, if_neg Bool.false_ne_true]
  | case5 x m rest hd hmark ih =>
    have hmw := head_dropWhile_false isWs x m rest hd
    have hmn := not_ws_ne_newline m hmw
    have hmarkf : isMarker m = false := Bool.not_eq_true _ |>.mp hmark
    rw [countListItems_not_marker x m rest hd hmarkf, countListLines_eq_dropWhile, hd]
    have hdw : (m :: rest).dropWhile (fun c => ¬(c = '\n'))
        = rest.dropWhile (fun c => ¬(c = '\n')) := by
      simp [List.dropWhile_cons, hmn]
    have htw : (m :: rest).takeWhile (fun c => ¬(c = '\n'))
        = m :: rest.takeWhile (fun c => ¬(c = '\n')) := by
      simp [List.takeWhile_cons, hmn]
    have hli : ∀ b, lineIsListItem (m :: rest.takeWhile (fun c => ¬(c = '\n'))) b
        = false := by
      intro b
      rw [lineIsListItem.eq_def]
      have hstay : (m :: rest.takeWhile (fun c => ¬(c = '\n'))).dropWhile isWs
          = m :: rest.takeWhile (fun c => ¬(c = '\n')) := by
        simp [List.dropWhile_cons, hmw]
      rw [hstay]
      match rest.takeWhile (fun c => ¬(c = '\n')) with
      | [] => simp [hmarkf]
      | _ :: _ => simp [hmarkf]
    match hres : rest.dropWhile (fun c => ¬(c = '\n')) with
    | [] =>
      rw [countListLines_last_line _ (hdw.trans hres), htw, hli false,
        if_neg Bool.false_ne_true]
      have hdl : dropLine rest = [] := by
        rw [dropLine_eq_tail_dropWhile, hres]
        rfl
      rw [ih, hdl, countListLines_nil]
    | c2 :: r2 =>
      rw [countListLines_line_cons _ c2 r2 (hdw.trans hres), htw, hli true,
        if_neg Bool.false_ne_true]
      have hdl : dropLine rest = r2 := by
        rw [dropLine_eq_tail_dropWhile, hres]
        rfl
      rw [ih, hdl]
      exact (Nat.zero_add _).symm

unseal countListItems countListLinesSpaceOnly in
/-- C6 counterexample: in the file `"-\tx\n"` the only line starts, after no
leading whitespace, with `-` followed by a tab — not a space — yet the
analyzer counts it: the code's count and the count described by the claim
differ. -/
theorem C6_counterexample_tab_after_marker :
    (analyze_complexity "-\tx\n".toList).lists = 1
    ∧ countListLinesSpaceOnly "-\tx\n".toList = 0
    ∧ ¬((analyze_complexity "-\tx\n".toList).lists
        = countListLinesSpaceOnly "-\tx\n".toList) := by
  decide

/-- C6 (amended): for every file, the analyzer's list-item count equals the
number of lines which, after ignoring leading whitespace, start with `-`, `*`
or `+` followed by a whitespace character (space, tab, carriage return, form
feed, vertical tab, or the newline terminating the line); a marker that is
the last character of the file, with nothing after it, is not counted. -/
theorem C6_list_item_count_amended :
    ∀ content : List Char,
      (analyze_complexity content).lists = countListLines content :=
  fun content => countListItems_eq_countListLines content

unseal linkMatches matchLinkBody in
/-- Witness for C10 at a concrete file. -/
theorem C10_link_matches_contain_no_newline_witness :
    ('\n' : Char) ∉ "[a](b)".toList :=
  C10_link_matches_contain_no_newline "x [a](b) y".toList "[a](b)".toList (by decide)
